import Mathlib

/- Batteries marks the `Rat` field operations `@[irreducible]`, which blocks
the `decide`-based evaluation of the executable model on concrete loans; the
kernel itself ignores reducibility, so restoring the default status is sound
and only affects elaboration. -/
set_option allowUnsafeReducibility true
attribute [semireducible] Rat.mul Rat.add Rat.sub Rat.inv Rat.div

/-!
# Verification of the pyloans `Loan` amortization engine

Shallow embedding of `src/pyloans/Loan.py` (class `Loan`): the schedule
generator (`get_org_cfs`), the waterfall re-amortizer (`_get_mod_cfs`), the
metric calculators (`_wal`, `org_wal`, `org_apr`, `mod_wal`, `mod_apr`,
`_maturity`), the payment-state machine (`prepay_fully`, `update_addl_pmts`,
`reset_addl_pmts`) and the construction-time validation (`_check_inputs`).

Modelling conventions:
* Python floats are modelled as exact rationals (`ℚ`).
* A pandas `DataFrame` of cashflow rows is a `List Row`, in order; the frame's
  0-based `RangeIndex` is the list position, and the `period` column is
  position + 1, exactly as `df['period'] = df.index + 1` sets it.
* The `dates` column (calendar arithmetic via `pd.DateOffset`) plays no role
  in any of the verified claims and is omitted from `Row`.
* `df = df[self.cols]` drops the `closing_accrued_interest` column from both
  schedules, so `Row` has no such field; inside the re-amortization loop the
  quantity exists only as the carried Python variable `cl_ai`, which the
  embedding carries as the second component of the `waterfallAux` output.
* A Python dict of additional payments is an association list `AddlMap`
  (unique keys); dict truthiness is non-emptiness of the list, and
  `pd.Series(..., index=df.index).fillna(0)` alignment is the
  missing-key-is-zero lookup `addlGet`.
* Exceptions are `Except LoanError`; each method raises before mutating, and
  `Loan.step` models a caller that catches the exception (object unchanged).
* `numpy_financial`'s `pmt`/`ipmt`/`ppmt` (with `fv = 0`, payments at period
  end) are the standard annuity closed forms `annuity_pmt`, `ipmt`, `ppmt`
  below, where `orgBal k` is the declining balance after `k` payments.
-/

namespace Pyloans

/-- Payment frequency codes, `Loan.valid_pmt_freq`:
'W', '2W', 'M', 'BM', 'Q', 'H', 'Y'. -/
inductive Freq
  | W
  | W2
  | M
  | BM
  | Q
  | H
  | Y
deriving DecidableEq, Inhabited

/-- Source `Loan.period_to_months`: month-equivalent of one payment period. -/
def period_to_months : Freq → ℚ
  | .W => 7 / 30
  | .W2 => 14 / 30
  | .M => 1
  | .BM => 2
  | .Q => 3
  | .H => 6
  | .Y => 12

/-- One row of a cashflow schedule: the columns of `Loan.cols` except the
omitted `dates` column.  `closing_accrued_interest` is not a column of the
frame (it is dropped by `df = df[self.cols]`). -/
structure Row where
  period : ℕ
  opening_principal : ℚ
  opening_accrued_interest : ℚ
  current_period_interest : ℚ
  interest_pmt : ℚ
  principal_pmt : ℚ
  additional_pmt : ℚ
  total_pmt : ℚ
  closing_principal : ℚ
deriving DecidableEq, Inhabited

/-- The additional-payment dict: an association list period ↦ amount with
unique keys (`dict` semantics). -/
abbrev AddlMap := List (ℕ × ℚ)

/-- Dict lookup with the missing-key-is-zero convention used throughout the
source (`pd.Series(self.addl_pmts, index=df.index).fillna(0)` and
`self.addl_pmts.get(k, 0.0)`). -/
def addlGet (m : AddlMap) (k : ℕ) : ℚ := (m.lookup k).getD 0

/-- Source `Loan._merge_addl_pmt`: union of key sets, summing amounts on key
collision (`{k: self.addl_pmts.get(k, 0.0) + addl_pmt_update.get(k, 0.0)}`). -/
def mergeAddl (m1 m2 : AddlMap) : AddlMap :=
  ((m1.map Prod.fst ++ m2.map Prod.fst).dedup).map fun k => (k, addlGet m1 k + addlGet m2 k)

/-- Source `-npf.pmt(rate, nper, pv)`: the fixed annuity payment.  For `rate = 0`
this is `pv / nper` (numpy's zero-rate branch). -/
def annuity_pmt (r P : ℚ) (n : ℕ) : ℚ :=
  if r = 0 then P / n else r * P * (1 + r) ^ n / ((1 + r) ^ n - 1)

/-- The declining annuity balance after `k` scheduled payments; `npf.ipmt`
charges period-`k` interest on `orgBal (k-1)`. -/
def orgBal (r P : ℚ) (n : ℕ) : ℕ → ℚ
  | 0 => P
  | k + 1 => orgBal r P n k * (1 + r) - annuity_pmt r P n

/-- Source `-npf.ipmt(rate, per, nper, pv)`: interest portion of payment `per`. -/
def ipmt (r P : ℚ) (n per : ℕ) : ℚ := r * orgBal r P n (per - 1)

/-- Source `-npf.ppmt(rate, per, nper, pv)`: principal portion of payment `per`. -/
def ppmt (r P : ℚ) (n per : ℕ) : ℚ := annuity_pmt r P n - ipmt r P n per

/-- The cumulative sum `df['principal_pmt'].cumsum()` evaluated at row `k` (periods `1..k`). -/
def cumPpmt (r P : ℚ) (n k : ℕ) : ℚ := ∑ j ∈ Finset.range k, ppmt r P n (j + 1)

/-- Row `k` (1-based period) of the original schedule, as built by
`Loan.get_org_cfs`: annuity interest/principal portions,
`closing_principal = loan_amt - cumsum(principal_pmt)`,
`opening_principal = closing_principal.shift(1).fillna(loan_amt)`,
`current_period_interest = interest_pmt`, zero accrued interest, zero
additional payment, `total_pmt = interest_pmt + principal_pmt +
additional_pmt`. -/
def orgRow (r P : ℚ) (n k : ℕ) : Row :=
  { period := k
    opening_principal := P - cumPpmt r P n (k - 1)
    opening_accrued_interest := 0
    current_period_interest := ipmt r P n k
    interest_pmt := ipmt r P n k
    principal_pmt := ppmt r P n k
    additional_pmt := 0
    total_pmt := ipmt r P n k + ppmt r P n k + 0
    closing_principal := P - cumPpmt r P n k }

/-- Source `Loan.get_org_cfs`: the original schedule, one row per period `1..n`
(`df['period'] = df.index + 1`). -/
def orgCfs (r P : ℚ) (n : ℕ) : List Row := (List.range' 1 n).map (orgRow r P n)

/-- The row-by-row loop of `Loan._get_mod_cfs`, carrying `cl_p` (closing
principal) and `cl_ai` (closing accrued interest) forward.  Each output pair
is the rewritten row together with the `closing_accrued_interest` computed
for it (a value the source keeps only in the loop variable `cl_ai`, since the
column is dropped by the projection onto `Loan.cols`). -/
def waterfallAux (rate : ℚ) (m : AddlMap) (clP clAi : ℚ) : List Row → List (Row × ℚ)
  | [] => []
  | row :: rest =>
    let op := clP
    let oai := clAi
    let ci := op * rate
    let ap := addlGet m row.period
    let tp := min (row.interest_pmt + row.principal_pmt + ap) (op + oai + ci)
    let cai := max 0 (oai + ci - tp)
    let cp := max 0 (op + oai + ci - tp)
    ({ row with
        opening_principal := op
        opening_accrued_interest := oai
        current_period_interest := ci
        additional_pmt := ap
        total_pmt := tp
        closing_principal := cp }, cai) :: waterfallAux rate m cp cai rest

/-- The re-amortized schedule: the loop of `Loan._get_mod_cfs` started at
`cl_p = loan_amt`, `cl_ai = 0`. -/
def waterfall (rate : ℚ) (m : AddlMap) (P : ℚ) (rows : List Row) : List Row :=
  (waterfallAux rate m P 0 rows).map Prod.fst

/-- Abbreviation for the `total_pmt` computed by one iteration of the
`_get_mod_cfs` loop (used to state lemmas about the loop body). -/
def stepTotal (rate : ℚ) (m : AddlMap) (clP clAi : ℚ) (row : Row) : ℚ :=
  min (row.interest_pmt + row.principal_pmt + addlGet m row.period)
    (clP + clAi + clP * rate)

/-- Abbreviation for the `closing_principal` computed by one iteration. -/
def stepClP (rate : ℚ) (m : AddlMap) (clP clAi : ℚ) (row : Row) : ℚ :=
  max 0 (clP + clAi + clP * rate - stepTotal rate m clP clAi row)

/-- Abbreviation for the `closing_accrued_interest` computed by one
iteration. -/
def stepClAi (rate : ℚ) (m : AddlMap) (clP clAi : ℚ) (row : Row) : ℚ :=
  max 0 (clAi + clP * rate - stepTotal rate m clP clAi row)

/-- Errors raised by the source: `TypeError` / `ValueError` from
`Loan._check_inputs`, `PrepaymentException` from the state machine, and the
pandas `KeyError` from `df.loc[period-1, ...]` on a missing label. -/
inductive LoanError
  | typeError
  | valueError
  | prepaymentException
  | keyError
deriving DecidableEq, Inhabited

/-- The range/enumeration part of `Loan._check_inputs`, iterating the
`Loan.valid_inputs` table in its order.  Type checks are subsumed by the
embedding's static types, `loan_dt`/`freq` carry no range check (`freq`
membership in `('W','2W','M','BM','Q','H','Y')` always holds for the `Freq`
type), and the `addl_pmts` and `segment` entries check nothing
(`min = None`, `vals = ()`). -/
def check_inputs (loan_amt interest_rate term_in_months fees_pct : ℚ)
    (channel : String) : Except LoanError Unit :=
  if loan_amt < 0 ∨ 10 * 10 ^ 9 < loan_amt then .error .valueError
  else if interest_rate < 0 ∨ 1 < interest_rate then .error .valueError
  else if term_in_months < 0 ∨ 1200 < term_in_months then .error .valueError
  else if fees_pct < 0 ∨ 1 < fees_pct then .error .valueError
  else if channel = "free" ∨ channel = "paid" then .ok () else .error .valueError

/-- The `Loan` object: constructor inputs, the derived attributes computed in
`__init__` (`_periods`, `_period_interest_rate`, `pmt`), and the mutable
state (`addl_pmts`, `fully_prepaid`, `original_cfs`, `updated_cfs`). -/
@[ext]
structure Loan where
  loan_amt : ℚ
  interest_rate : ℚ
  term_in_months : ℚ
  freq : Freq
  fees_pct : ℚ
  segment : String
  channel : String
  periods : ℕ
  period_interest_rate : ℚ
  pmt : ℚ
  addl_pmts : AddlMap
  fully_prepaid : Bool
  original_cfs : List Row
  updated_cfs : List Row
deriving DecidableEq, Inhabited

/-- Method `Loan.get_org_cfs` on the stored attributes; see `orgCfs` for the body. -/
def Loan.get_org_cfs (l : Loan) : List Row :=
  orgCfs l.period_interest_rate l.loan_amt l.periods

/-- Source `Loan._get_mod_cfs`: frozen schedule if fully prepaid; the original
schedule if the additional-payment dict is empty (falsy); otherwise the
waterfall replay over the current `updated_cfs` rows. -/
def Loan.get_mod_cfs (l : Loan) : List Row :=
  if l.fully_prepaid then l.updated_cfs
  else if l.addl_pmts.isEmpty then l.get_org_cfs
  else waterfall l.period_interest_rate l.addl_pmts l.loan_amt l.updated_cfs

/-- Source `Loan.__init__`: validate, derive `_periods = ceil(term_in_months /
period_to_months[freq])`, `_period_interest_rate = interest_rate *
period_to_months[freq] / 12`, `pmt = -npf.pmt(...)`, set `fully_prepaid = 0`,
compute `original_cfs = get_org_cfs()` and `updated_cfs = _get_mod_cfs()`
(the latter over a fresh `get_org_cfs()` copy). -/
def mkLoan (loan_amt interest_rate term_in_months : ℚ) (freq : Freq)
    (fees_pct : ℚ) (addl : AddlMap) (segment channel : String) :
    Except LoanError Loan :=
  match check_inputs loan_amt interest_rate term_in_months fees_pct channel with
  | .error e => .error e
  | .ok _ =>
    let n : ℕ := (⌈term_in_months / period_to_months freq⌉).toNat
    let rate : ℚ := interest_rate * period_to_months freq / 12
    let l0 : Loan :=
      { loan_amt := loan_amt
        interest_rate := interest_rate
        term_in_months := term_in_months
        freq := freq
        fees_pct := fees_pct
        segment := segment
        channel := channel
        periods := n
        period_interest_rate := rate
        pmt := annuity_pmt rate loan_amt n
        addl_pmts := addl
        fully_prepaid := false
        original_cfs := orgCfs rate loan_amt n
        updated_cfs := orgCfs rate loan_amt n }
    .ok { l0 with updated_cfs := l0.get_mod_cfs }

/-- Source `Loan._wal` applied to a schedule:
`((opening_principal - closing_principal) * period).sum() *
period_to_months[freq] / loan_amt`. -/
def wal_of (ptm loan_amt : ℚ) (rows : List Row) : ℚ :=
  (rows.map fun x =>
      (x.opening_principal - x.closing_principal) * (x.period : ℚ)).sum
    * ptm / loan_amt

/-- Source `Loan.org_wal`: `_wal(self.get_org_cfs())`. -/
def Loan.org_wal (l : Loan) : ℚ :=
  wal_of (period_to_months l.freq) l.loan_amt l.get_org_cfs

/-- Source `Loan.mod_wal`: `_wal(self.updated_cfs)`. -/
def Loan.mod_wal (l : Loan) : ℚ :=
  wal_of (period_to_months l.freq) l.loan_amt l.updated_cfs

/-- Source `Loan.org_apr`: `interest_rate + fees_pct / (org_wal / 12)`. -/
def Loan.org_apr (l : Loan) : ℚ := l.interest_rate + l.fees_pct / (l.org_wal / 12)

/-- Source `Loan.mod_apr`: `interest_rate + fees_pct / (mod_wal / 12)`. -/
def Loan.mod_apr (l : Loan) : ℚ := l.interest_rate + l.fees_pct / (l.mod_wal / 12)

/-- The floating-point tolerance `1e-9` of `Loan._maturity`. -/
def maturityTol : ℚ := 1 / 10 ^ 9

/-- Source `Loan._maturity` over a schedule:
`_cfs[_cfs.closing_principal <= 1e-9].period.min()` (pandas `min` of an
empty selection is the missing value, modelled as `⊤`). -/
def maturity_of (rows : List Row) : WithTop ℕ :=
  ((rows.filter fun x => x.closing_principal ≤ maturityTol).map
      fun x => x.period).minimum

/-- Source `Loan.org_maturity_period`: the precomputed `_periods`. -/
def Loan.org_maturity_period (l : Loan) : ℕ := l.periods

/-- Source `Loan.mod_maturity_period`: `_maturity()` of `updated_cfs`. -/
def Loan.mod_maturity_period (l : Loan) : WithTop ℕ := maturity_of l.updated_cfs

/-- Source `Loan.prepay_fully(period)`: raise if already fully prepaid; otherwise
read `self.updated_cfs.loc[period-1, 'closing_principal']` (the row at
0-based label `period - 1`, whose `period` column is `period`), merge it into
the dict at key `period`, re-amortize (the flag is still 0 at that point),
then set `fully_prepaid = 1`. -/
def Loan.prepay_fully (l : Loan) (period : ℕ) : Except LoanError Loan :=
  if l.fully_prepaid then .error .prepaymentException
  else
    match l.updated_cfs[period - 1]? with
    | none => .error .keyError
    | some row =>
      let l1 := { l with
        addl_pmts := mergeAddl l.addl_pmts [(period, row.closing_principal)] }
      .ok { l1 with updated_cfs := l1.get_mod_cfs, fully_prepaid := true }

/-- Source `Loan.update_addl_pmts`: raise if fully prepaid; merge into a non-empty
dict, or install the update verbatim into an empty one; re-amortize. -/
def Loan.update_addl_pmts (l : Loan) (upd : AddlMap) : Except LoanError Loan :=
  if l.fully_prepaid then .error .prepaymentException
  else if l.addl_pmts.isEmpty then
    let l1 := { l with addl_pmts := upd }
    .ok { l1 with updated_cfs := l1.get_mod_cfs }
  else
    let l1 := { l with addl_pmts := mergeAddl l.addl_pmts upd }
    .ok { l1 with updated_cfs := l1.get_mod_cfs }

/-- Source `Loan.reset_addl_pmts`: clear the dict, clear the flag, re-amortize. -/
def Loan.reset_addl_pmts (l : Loan) : Loan :=
  let l1 := { l with addl_pmts := ([] : AddlMap), fully_prepaid := false }
  { l1 with updated_cfs := l1.get_mod_cfs }

/-- A state-machine operation invoked by a caller. -/
inductive LoanOp
  | update (m : AddlMap)
  | prepay (p : ℕ)
  | reset

/-- One caller-level invocation: a raised `PrepaymentException`/`KeyError`
propagates to the caller and leaves the object as it was. -/
def Loan.step (l : Loan) : LoanOp → Loan
  | .update m =>
    match l.update_addl_pmts m with
    | .ok l2 => l2
    | .error _ => l
  | .prepay p =>
    match l.prepay_fully p with
    | .ok l2 => l2
    | .error _ => l
  | .reset => l.reset_addl_pmts

/-- A sequence of state-machine operations. -/
def Loan.runOps (l : Loan) : List LoanOp → Loan
  | [] => l
  | op :: ops => (l.step op).runOps ops

/-- The schedule a flag-false loan's `updated_cfs` holds, as a function of
the additional-payment dict: the two non-frozen branches of
`Loan._get_mod_cfs`. -/
def modCfsOf (rate P : ℚ) (n : ℕ) (m : AddlMap) : List Row :=
  if m.isEmpty then orgCfs rate P n else waterfall rate m P (orgCfs rate P n)

/-- Well-formedness of a `Loan` state: the derived attributes agree with the
constructor inputs (as `__init__` sets them), the rate and principal are
non-negative (guaranteed by `_check_inputs`: `interest_rate ∈ [0,1]`,
`loan_amt ∈ [0, 1e10]`), `original_cfs` is the constructed original schedule,
and — while not fully prepaid — `updated_cfs` is the re-amortization of the
current dict.  Established at construction and preserved by the state
machine. -/
def Loan.Wf (l : Loan) : Prop :=
  0 ≤ l.period_interest_rate ∧
  0 ≤ l.loan_amt ∧
  l.periods = (⌈l.term_in_months / period_to_months l.freq⌉).toNat ∧
  l.period_interest_rate = l.interest_rate * period_to_months l.freq / 12 ∧
  l.pmt = annuity_pmt l.period_interest_rate l.loan_amt l.periods ∧
  l.original_cfs = orgCfs l.period_interest_rate l.loan_amt l.periods ∧
  (l.fully_prepaid = false →
    l.updated_cfs = modCfsOf l.period_interest_rate l.loan_amt l.periods l.addl_pmts)

instance (l : Loan) : Decidable l.Wf := by
  unfold Loan.Wf
  infer_instance

/-- The signature of a row that the waterfall reads but never writes: the
`period`, `interest_pmt` and `principal_pmt` columns. -/
def rowSig (row : Row) : ℕ × ℚ × ℚ := (row.period, row.interest_pmt, row.principal_pmt)

/-! ### Concrete test fixtures

Small loans used to instantiate the hypotheses of the general theorems on
explicit inputs: principal 300, a three-month monthly term (3 periods), and a
zero interest rate (so the annuity payment is 100 per period and the original
closing balances are 200, 100, 0). -/

/-- Unwrap a construction/operation known to succeed. -/
def exOk (e : Except LoanError Loan) : Loan := e.toOption.getD default

/-- A fresh 3-period loan with no additional payments. -/
def sampleLoanEmpty : Loan := exOk (mkLoan 300 0 3 Freq.M 0 [] "c" "free")

/-- The same loan constructed with an additional payment of 50 in period 2. -/
def sampleLoanAddl : Loan := exOk (mkLoan 300 0 3 Freq.M 0 [(2, 50)] "c" "free")

/-- The loan `sampleLoanEmpty` after `update_addl_pmts({2: 100})`. -/
def sampleLoanAfterUpdate : Loan := exOk (sampleLoanEmpty.update_addl_pmts [(2, 100)])

/-- The loan `sampleLoanAddl` after `prepay_fully(2)`. -/
def sampleLoanPrepaid : Loan := exOk (sampleLoanAddl.prepay_fully 2)

/-- Row at 0-based label 1 (period 2) of `sampleLoanEmpty.updated_cfs`. -/
def sampleRowTwo : Row := (sampleLoanEmpty.updated_cfs[1]?).getD default

/-- The same loan constructed with an additional-payment dict whose key 5
exceeds the period count 3 and whose amount is negative. -/
def sampleLoanBadMap : Loan := exOk (mkLoan 300 0 3 Freq.M 0 [(5, -50)] "c" "free")

/-! ## Lemmas about the additional-payment dict -/

theorem lookup_map_pair (f : ℕ → ℚ) (k : ℕ) :
    ∀ l : List ℕ,
      ((l.map fun j => (j, f j)).lookup k) = if k ∈ l then some (f k) else none
  | [] => by simp
  | j :: l => by
    by_cases h : k = j
    · subst h
      simp [List.lookup]
    · have hb : (k == j) = false := by simp [h]
      simp [List.lookup, hb, h, lookup_map_pair f k l]

theorem lookup_eq_none_of_not_mem_keys (k : ℕ) :
    ∀ m : AddlMap, k ∉ m.map Prod.fst → m.lookup k = none
  | [] => fun _ => rfl
  | (j, v) :: m => by
    intro h
    simp only [List.map_cons, List.mem_cons] at h
    push_neg at h
    have hb : (k == j) = false := by simp [h.1]
    simp [List.lookup, hb, lookup_eq_none_of_not_mem_keys k m h.2]

@[simp] theorem addlGet_nil (k : ℕ) : addlGet ([] : AddlMap) k = 0 := rfl

theorem addlGet_mergeAddl (m1 m2 : AddlMap) (k : ℕ) :
    addlGet (mergeAddl m1 m2) k = addlGet m1 k + addlGet m2 k := by
  unfold mergeAddl addlGet
  rw [lookup_map_pair]
  by_cases h : k ∈ (m1.map Prod.fst ++ m2.map Prod.fst).dedup
  · simp [h, addlGet]
  · rw [List.mem_dedup, List.mem_append] at h
    push_neg at h
    rw [lookup_eq_none_of_not_mem_keys k m1 h.1, lookup_eq_none_of_not_mem_keys k m2 h.2]
    simp [List.mem_dedup, List.mem_append, h.1, h.2]

theorem addlGet_single (p : ℕ) (a : ℚ) (k : ℕ) :
    addlGet [(p, a)] k = if k = p then a else 0 := by
  by_cases h : k = p
  · subst h; simp [addlGet, List.lookup]
  · have hb : (k == p) = false := by simp [h]
    simp [addlGet, List.lookup, hb, h]

theorem mergeAddl_ne_nil (m1 m2 : AddlMap) (h : m2 ≠ []) : mergeAddl m1 m2 ≠ [] := by
  unfold mergeAddl
  intro hc
  rw [List.map_eq_nil_iff] at hc
  rcases m2 with _ | ⟨⟨p, a⟩, t⟩
  · exact h rfl
  · have : p ∈ (m1.map Prod.fst ++ ((p, a) :: t).map Prod.fst).dedup := by
      rw [List.mem_dedup, List.mem_append]
      exact Or.inr (by simp)
    rw [hc] at this
    simp at this

/-! ## Structural lemmas about the waterfall replay -/

theorem waterfallAux_cons (rate : ℚ) (m : AddlMap) (clP clAi : ℚ) (row : Row)
    (rest : List Row) :
    waterfallAux rate m clP clAi (row :: rest) =
      ({ row with
          opening_principal := clP
          opening_accrued_interest := clAi
          current_period_interest := clP * rate
          additional_pmt := addlGet m row.period
          total_pmt := stepTotal rate m clP clAi row
          closing_principal := stepClP rate m clP clAi row },
        stepClAi rate m clP clAi row) ::
        waterfallAux rate m (stepClP rate m clP clAi row)
          (stepClAi rate m clP clAi row) rest := rfl

theorem waterfallAux_length (rate : ℚ) (m : AddlMap) :
    ∀ (rows : List Row) (p a : ℚ), (waterfallAux rate m p a rows).length = rows.length
  | [], _, _ => rfl
  | _ :: rest, p, a => by
    rw [waterfallAux_cons, List.length_cons, List.length_cons,
      waterfallAux_length rate m rest]

theorem waterfallAux_rowSig (rate : ℚ) (m : AddlMap) :
    ∀ (rows : List Row) (p a : ℚ),
      ((waterfallAux rate m p a rows).map Prod.fst).map rowSig = rows.map rowSig
  | [], _, _ => rfl
  | row :: rest, p, a => by
    rw [waterfallAux_cons, List.map_cons, List.map_cons, List.map_cons]
    exact congrArg₂ List.cons rfl (waterfallAux_rowSig rate m rest _ _)

theorem waterfall_rowSig (rate : ℚ) (m : AddlMap) (P : ℚ) (rows : List Row) :
    (waterfall rate m P rows).map rowSig = rows.map rowSig :=
  waterfallAux_rowSig rate m rows P 0

theorem waterfallAux_congr (rate : ℚ) (m : AddlMap) :
    ∀ (rows1 rows2 : List Row) (p a : ℚ),
      rows1.map rowSig = rows2.map rowSig →
      waterfallAux rate m p a rows1 = waterfallAux rate m p a rows2
  | [], [], _, _, _ => rfl
  | [], _ :: _, _, _, h => by simp at h
  | _ :: _, [], _, _, h => by simp at h
  | r1 :: t1, r2 :: t2, p, a, h => by
    simp only [List.map_cons, List.cons.injEq] at h
    obtain ⟨hsig, htail⟩ := h
    rw [rowSig, rowSig, Prod.mk.injEq, Prod.mk.injEq] at hsig
    obtain ⟨h1, h2, h3⟩ := hsig
    rw [waterfallAux_cons, waterfallAux_cons]
    rw [stepTotal, stepTotal, stepClP, stepClP, stepClAi, stepClAi, stepTotal, stepTotal]
    rw [h1, h2, h3]
    exact congrArg₂ List.cons rfl (waterfallAux_congr rate m t1 t2 _ _ htail)

theorem waterfallAux_head (rate : ℚ) (m : AddlMap) (p a : ℚ) (rows : List Row)
    (pr : Row × ℚ) (h : (waterfallAux rate m p a rows)[0]? = some pr) :
    pr.1.opening_principal = p ∧ pr.1.opening_accrued_interest = a := by
  cases rows with
  | nil => simp [waterfallAux] at h
  | cons row rest =>
    rw [waterfallAux_cons, List.getElem?_cons_zero, Option.some.injEq] at h
    rw [← h]
    exact ⟨rfl, rfl⟩

theorem waterfallAux_fields (rate : ℚ) (m : AddlMap) :
    ∀ (rows : List Row) (p a : ℚ) (i : ℕ) (pr : Row × ℚ),
      (waterfallAux rate m p a rows)[i]? = some pr →
      pr.1.current_period_interest = pr.1.opening_principal * rate ∧
      pr.1.additional_pmt = addlGet m pr.1.period ∧
      pr.1.total_pmt =
        min (pr.1.interest_pmt + pr.1.principal_pmt + pr.1.additional_pmt)
          (pr.1.opening_principal + pr.1.opening_accrued_interest +
            pr.1.current_period_interest) ∧
      pr.2 =
        max 0 (pr.1.opening_accrued_interest + pr.1.current_period_interest -
          pr.1.total_pmt) ∧
      pr.1.closing_principal =
        max 0 (pr.1.opening_principal + pr.1.opening_accrued_interest +
          pr.1.current_period_interest - pr.1.total_pmt)
  | [], _, _, _, _ => by
    intro h
    simp [waterfallAux] at h
  | row :: rest, p, a, 0, pr => by
    intro h
    rw [waterfallAux_cons, List.getElem?_cons_zero, Option.some.injEq] at h
    rw [← h]
    exact ⟨rfl, rfl, rfl, rfl, rfl⟩
  | row :: rest, p, a, i + 1, pr => by
    intro h
    rw [waterfallAux_cons, List.getElem?_cons_succ] at h
    exact waterfallAux_fields rate m rest _ _ i pr h

theorem waterfallAux_chain (rate : ℚ) (m : AddlMap) :
    ∀ (rows : List Row) (p a : ℚ) (i : ℕ) (prev cur : Row × ℚ),
      (waterfallAux rate m p a rows)[i]? = some prev →
      (waterfallAux rate m p a rows)[i + 1]? = some cur →
      cur.1.opening_principal = prev.1.closing_principal ∧
      cur.1.opening_accrued_interest = prev.2
  | [], _, _, _, _, _ => by
    intro h _
    simp [waterfallAux] at h
  | row :: rest, p, a, 0, prev, cur => by
    intro h1 h2
    rw [waterfallAux_cons, List.getElem?_cons_zero, Option.some.injEq] at h1
    rw [waterfallAux_cons, List.getElem?_cons_succ] at h2
    have hh := waterfallAux_head rate m _ _ rest cur h2
    rw [← h1]
    exact hh
  | row :: rest, p, a, i + 1, prev, cur => by
    intro h1 h2
    rw [waterfallAux_cons, List.getElem?_cons_succ] at h1
    rw [waterfallAux_cons, List.getElem?_cons_succ] at h2
    exact waterfallAux_chain rate m rest _ _ i prev cur h1 h2

/-! ## Annuity algebra: the `numpy_financial` closed forms -/

theorem growth_pos (r : ℚ) (hr : 0 ≤ r) (n : ℕ) : 0 < (1 + r) ^ n :=
  pow_pos (by linarith) n

theorem one_le_growth (r : ℚ) (hr : 0 ≤ r) (n : ℕ) : 1 ≤ (1 + r) ^ n :=
  one_le_pow₀ (by linarith)

theorem growth_mono (r : ℚ) (hr : 0 ≤ r) {k n : ℕ} (h : k ≤ n) :
    (1 + r) ^ k ≤ (1 + r) ^ n :=
  pow_le_pow_right₀ (by linarith) h

theorem denom_pos (r : ℚ) (hr : 0 < r) {n : ℕ} (hn : 1 ≤ n) : 0 < (1 + r) ^ n - 1 := by
  have : (1 : ℚ) < 1 + r := by linarith
  have := one_lt_pow₀ this (by omega : n ≠ 0)
  linarith

theorem orgBal_succ (r P : ℚ) (n k : ℕ) :
    orgBal r P n (k + 1) = orgBal r P n k * (1 + r) - annuity_pmt r P n := rfl

theorem orgBal_closed (r P : ℚ) (n : ℕ) (hr : 0 < r) (hn : 1 ≤ n) :
    ∀ k, orgBal r P n k = P * ((1 + r) ^ n - (1 + r) ^ k) / ((1 + r) ^ n - 1)
  | 0 => by
    have hD : (1 + r) ^ n - 1 ≠ 0 := ne_of_gt (denom_pos r hr hn)
    rw [orgBal]
    field_simp
  | k + 1 => by
    have hD : (1 + r) ^ n - 1 ≠ 0 := ne_of_gt (denom_pos r hr hn)
    rw [orgBal_succ, orgBal_closed r P n hr hn k, annuity_pmt, if_neg (ne_of_gt hr)]
    field_simp
    ring

theorem orgBal_zero_rate (P : ℚ) (n : ℕ) :
    ∀ k, orgBal 0 P n k = P - k * (P / n)
  | 0 => by
    rw [orgBal]
    simp
  | k + 1 => by
    rw [orgBal_succ, orgBal_zero_rate P n k, annuity_pmt, if_pos rfl]
    push_cast
    ring

theorem orgBal_nonneg (r P : ℚ) (n : ℕ) (hr : 0 ≤ r) (hP : 0 ≤ P) :
    ∀ {k : ℕ}, k ≤ n → 0 ≤ orgBal r P n k := by
  intro k hk
  rcases Nat.eq_zero_or_pos n with hn | hn
  · subst hn
    interval_cases k
    exact hP
  · rcases eq_or_lt_of_le hr with h0 | hpos
    · rw [← h0, orgBal_zero_rate]
      have hdiv : 0 ≤ P / (n : ℚ) := by positivity
      have hle : (k : ℚ) * (P / n) ≤ (n : ℚ) * (P / n) := by
        apply mul_le_mul_of_nonneg_right _ hdiv
        exact_mod_cast hk
      have hn0 : (n : ℚ) ≠ 0 := by
        have hq : (0 : ℚ) < n := by exact_mod_cast hn
        exact ne_of_gt hq
      have heq : (n : ℚ) * (P / n) = P := by field_simp
      linarith
    · rw [orgBal_closed r P n hpos hn k]
      apply div_nonneg _ (le_of_lt (denom_pos r hpos hn))
      apply mul_nonneg hP
      have := growth_mono r hr hk
      linarith

theorem orgBal_le (r P : ℚ) (n : ℕ) (hr : 0 ≤ r) (hP : 0 ≤ P) :
    ∀ {k : ℕ}, k ≤ n → orgBal r P n k ≤ P := by
  intro k hk
  rcases Nat.eq_zero_or_pos n with hn | hn
  · subst hn
    interval_cases k
    exact le_refl P
  · rcases eq_or_lt_of_le hr with h0 | hpos
    · rw [← h0, orgBal_zero_rate]
      have hdiv : 0 ≤ P / (n : ℚ) := by positivity
      have : 0 ≤ (k : ℚ) * (P / n) := by positivity
      linarith
    · rw [orgBal_closed r P n hpos hn k]
      have hD := denom_pos r hpos hn
      have hnum : (1 + r) ^ n - (1 + r) ^ k ≤ (1 + r) ^ n - 1 := by
        have := one_le_growth r hr k
        linarith
      have h1 : ((1 + r) ^ n - (1 + r) ^ k) / ((1 + r) ^ n - 1) ≤ 1 :=
        (div_le_one hD).2 hnum
      calc P * ((1 + r) ^ n - (1 + r) ^ k) / ((1 + r) ^ n - 1)
          = P * (((1 + r) ^ n - (1 + r) ^ k) / ((1 + r) ^ n - 1)) := by
            rw [mul_div_assoc]
        _ ≤ P * 1 := mul_le_mul_of_nonneg_left h1 hP
        _ = P := mul_one P

theorem rP_le_pmt (r P : ℚ) (n : ℕ) (hr : 0 ≤ r) (hP : 0 ≤ P) (hn : 1 ≤ n) :
    r * P ≤ annuity_pmt r P n := by
  rcases eq_or_lt_of_le hr with h0 | hpos
  · rw [← h0, annuity_pmt, if_pos rfl, zero_mul]
    have : (0 : ℚ) < n := by exact_mod_cast hn
    positivity
  · rw [annuity_pmt, if_neg (ne_of_gt hpos)]
    have hD := denom_pos r hpos hn
    have h1 : 1 ≤ (1 + r) ^ n / ((1 + r) ^ n - 1) := (one_le_div hD).2 (by linarith)
    have h2 : 0 ≤ r * P := mul_nonneg (le_of_lt hpos) hP
    calc r * P = r * P * 1 := (mul_one _).symm
      _ ≤ r * P * ((1 + r) ^ n / ((1 + r) ^ n - 1)) := mul_le_mul_of_nonneg_left h1 h2
      _ = r * P * (1 + r) ^ n / ((1 + r) ^ n - 1) := by rw [mul_div_assoc]

theorem pmt_le_growth_bal (r P : ℚ) (n : ℕ) (hr : 0 ≤ r) (hP : 0 ≤ P) {k : ℕ}
    (hk : k + 1 ≤ n) : annuity_pmt r P n ≤ orgBal r P n k * (1 + r) := by
  have h0 : 0 ≤ orgBal r P n (k + 1) := orgBal_nonneg r P n hr hP hk
  rw [orgBal_succ] at h0
  linarith

theorem ipmt_add_ppmt (r P : ℚ) (n per : ℕ) :
    ipmt r P n per + ppmt r P n per = annuity_pmt r P n := by
  rw [ppmt]
  ring

theorem ppmt_nonneg (r P : ℚ) (n : ℕ) (hr : 0 ≤ r) (hP : 0 ≤ P) {k : ℕ}
    (hk1 : 1 ≤ k) (hk : k ≤ n) : 0 ≤ ppmt r P n k := by
  have hb : orgBal r P n (k - 1) ≤ P := orgBal_le r P n hr hP (by omega)
  have h1 : r * orgBal r P n (k - 1) ≤ r * P := mul_le_mul_of_nonneg_left hb hr
  have h2 : r * P ≤ annuity_pmt r P n := rP_le_pmt r P n hr hP (by omega)
  rw [ppmt, ipmt]
  linarith

theorem cumPpmt_bal (r P : ℚ) (n : ℕ) :
    ∀ k, P - cumPpmt r P n k = orgBal r P n k
  | 0 => by
    rw [cumPpmt, orgBal]
    simp
  | k + 1 => by
    have ih := cumPpmt_bal r P n k
    have hc : cumPpmt r P n (k + 1) = cumPpmt r P n k + ppmt r P n (k + 1) := by
      rw [cumPpmt, cumPpmt, Finset.sum_range_succ]
    rw [hc, orgBal_succ, ← ih, ppmt, ipmt, Nat.add_sub_cancel, ← ih]
    ring

/-! ## The waterfall on the original schedule -/

theorem stepClP_eq (rate : ℚ) (m : AddlMap) (clP clAi : ℚ) (row : Row) :
    stepClP rate m clP clAi row =
      max 0 (clP + clAi + clP * rate -
        (row.interest_pmt + row.principal_pmt + addlGet m row.period)) := by
  rw [stepClP, stepTotal]
  rcases le_total (row.interest_pmt + row.principal_pmt + addlGet m row.period)
    (clP + clAi + clP * rate) with h | h
  · rw [min_eq_left h]
  · rw [min_eq_right h, sub_self, max_self]
    exact (max_eq_left (by linarith)).symm

/-- One loop iteration on row `j+1` of the original schedule, entered with
the original carries `(orgBal j, 0)` and a zero additional payment for the
period: the payment is not capped, so `total_pmt` is exactly the scheduled
`interest_pmt + principal_pmt + additional_pmt`. -/
theorem stepTotal_org (r P : ℚ) (n : ℕ) (m : AddlMap) (hr : 0 ≤ r) (hP : 0 ≤ P)
    {j : ℕ} (hj : j + 1 ≤ n) (hap : addlGet m (j + 1) = 0) :
    stepTotal r m (orgBal r P n j) 0 (orgRow r P n (j + 1)) =
      ipmt r P n (j + 1) + ppmt r P n (j + 1) + addlGet m (j + 1) := by
  have h1 := pmt_le_growth_bal r P n hr hP hj
  have h2 : orgBal r P n j * (1 + r) = orgBal r P n j + orgBal r P n j * r := by ring
  have hle : ipmt r P n (j + 1) + ppmt r P n (j + 1) + addlGet m (j + 1) ≤
      orgBal r P n j + 0 + orgBal r P n j * r := by
    rw [ipmt_add_ppmt, hap]
    linarith
  show min ((orgRow r P n (j + 1)).interest_pmt + (orgRow r P n (j + 1)).principal_pmt +
      addlGet m (orgRow r P n (j + 1)).period)
        (orgBal r P n j + 0 + orgBal r P n j * r) = _
  exact min_eq_left hle

/-- The loop carry entering row `j+1` of the original schedule with a zero
additional payment: closing principal is the next original balance. -/
theorem stepClP_org (r P : ℚ) (n : ℕ) (m : AddlMap) (hr : 0 ≤ r) (hP : 0 ≤ P)
    {j : ℕ} (hj : j + 1 ≤ n) (hap : addlGet m (j + 1) = 0) :
    stepClP r m (orgBal r P n j) 0 (orgRow r P n (j + 1)) = orgBal r P n (j + 1) := by
  rw [stepClP, stepTotal_org r P n m hr hP hj hap, hap, ipmt_add_ppmt]
  have hnn : 0 ≤ orgBal r P n (j + 1) := orgBal_nonneg r P n hr hP hj
  have : orgBal r P n j + 0 + orgBal r P n j * r - (annuity_pmt r P n + 0) =
      orgBal r P n (j + 1) := by
    rw [orgBal_succ]
    ring
  rw [this]
  exact max_eq_right hnn

/-- The accrued-interest carry leaving row `j+1` of the original schedule
with a zero additional payment is zero. -/
theorem stepClAi_org (r P : ℚ) (n : ℕ) (m : AddlMap) (hr : 0 ≤ r) (hP : 0 ≤ P)
    {j : ℕ} (hj : j + 1 ≤ n) (hap : addlGet m (j + 1) = 0) :
    stepClAi r m (orgBal r P n j) 0 (orgRow r P n (j + 1)) = 0 := by
  rw [stepClAi, stepTotal_org r P n m hr hP hj hap, hap, ipmt_add_ppmt]
  apply max_eq_left
  have hb : orgBal r P n j ≤ P := orgBal_le r P n hr hP (by omega)
  have h1 : r * orgBal r P n j ≤ r * P := mul_le_mul_of_nonneg_left hb hr
  have h2 : r * P ≤ annuity_pmt r P n := rP_le_pmt r P n hr hP (by omega)
  have h3 : orgBal r P n j * r = r * orgBal r P n j := mul_comm _ _
  linarith

/-- Opening principal of row `k` of the original schedule is `orgBal (k-1)`;
closing principal is `orgBal k`. -/
theorem orgRow_opening (r P : ℚ) (n k : ℕ) :
    (orgRow r P n k).opening_principal = orgBal r P n (k - 1) := by
  show P - cumPpmt r P n (k - 1) = _
  exact cumPpmt_bal r P n (k - 1)

theorem orgRow_closing (r P : ℚ) (n k : ℕ) :
    (orgRow r P n k).closing_principal = orgBal r P n k := by
  show P - cumPpmt r P n k = _
  exact cumPpmt_bal r P n k

/-- Replaying the original schedule with an (extensionally) empty
additional-payment dict reproduces it exactly, pair by pair, with a zero
accrued-interest carry throughout. -/
theorem waterfallAux_org (r P : ℚ) (n : ℕ) (mz : AddlMap) (hr : 0 ≤ r) (hP : 0 ≤ P)
    (hmz : ∀ k, addlGet mz k = 0) :
    ∀ (cnt j : ℕ), j + cnt ≤ n →
      waterfallAux r mz (orgBal r P n j) 0 ((List.range' (j + 1) cnt).map (orgRow r P n)) =
        (List.range' (j + 1) cnt).map fun k => (orgRow r P n k, 0)
  | 0, j, _ => rfl
  | cnt + 1, j, hle => by
    have hj : j + 1 ≤ n := by omega
    have hap := hmz (j + 1)
    have hhead : ({ orgRow r P n (j + 1) with
        opening_principal := orgBal r P n j
        opening_accrued_interest := (0 : ℚ)
        current_period_interest := orgBal r P n j * r
        additional_pmt := addlGet mz (orgRow r P n (j + 1)).period
        total_pmt := stepTotal r mz (orgBal r P n j) 0 (orgRow r P n (j + 1))
        closing_principal := stepClP r mz (orgBal r P n j) 0 (orgRow r P n (j + 1)) } : Row)
        = orgRow r P n (j + 1) := by
      have hper : (orgRow r P n (j + 1)).period = j + 1 := rfl
      have htot := stepTotal_org r P n mz hr hP hj hap
      have hclp := stepClP_org r P n mz hr hP hj hap
      rw [hper, htot, hclp, hap]
      simp only [orgRow, Row.mk.injEq, true_and, and_true]
      refine ⟨?_, ?_, ?_⟩
      · rw [Nat.add_sub_cancel]
        exact (cumPpmt_bal r P n j).symm
      · rw [ipmt, Nat.add_sub_cancel, mul_comm]
      · exact (cumPpmt_bal r P n (j + 1)).symm
    rw [List.range'_succ, List.map_cons, List.map_cons, waterfallAux_cons, hhead,
      stepClAi_org r P n mz hr hP hj hap, stepClP_org r P n mz hr hP hj hap]
    exact congrArg (List.cons _) (waterfallAux_org r P n mz hr hP hmz cnt (j + 1) (by omega))

/-- Replaying the original schedule with an extensionally empty dict is the
identity. -/
theorem waterfall_org (r P : ℚ) (n : ℕ) (mz : AddlMap) (hr : 0 ≤ r) (hP : 0 ≤ P)
    (hmz : ∀ k, addlGet mz k = 0) :
    waterfall r mz P (orgCfs r P n) = orgCfs r P n := by
  rw [waterfall, orgCfs]
  have h0 : orgBal r P n 0 = P := rfl
  have hh := waterfallAux_org r P n mz hr hP hmz n 0 (by omega)
  rw [h0] at hh
  rw [hh, List.map_map]
  rfl

/-- When every additional payment is non-negative, the accrued-interest carry
of the waterfall over (a suffix of) the original schedule stays identically
zero, and the running principal stays in `[0, loan_amt]`. -/
theorem waterfallAux_zero_ai (r P : ℚ) (n : ℕ) (m : AddlMap) (hr : 0 ≤ r) (hP : 0 ≤ P)
    (hm : ∀ k, 0 ≤ addlGet m k) :
    ∀ (cnt j : ℕ) (p0 : ℚ), j + cnt ≤ n → 0 ≤ p0 → p0 ≤ P →
      ∀ pr ∈ waterfallAux r m p0 0 ((List.range' (j + 1) cnt).map (orgRow r P n)),
        pr.2 = 0 ∧ pr.1.opening_accrued_interest = 0
  | 0, j, p0, _, _, _ => by
    intro pr hpr
    simp [waterfallAux] at hpr
  | cnt + 1, j, p0, hle, hp0, hpP => by
    intro pr hpr
    have hj : j + 1 ≤ n := by omega
    have hn1 : 1 ≤ n := by omega
    have hap : 0 ≤ addlGet m (j + 1) := hm (j + 1)
    have hper : (orgRow r P n (j + 1)).period = j + 1 := rfl
    have hipp : (orgRow r P n (j + 1)).interest_pmt + (orgRow r P n (j + 1)).principal_pmt =
        annuity_pmt r P n := ipmt_add_ppmt r P n (j + 1)
    have hrp : p0 * r ≤ annuity_pmt r P n := by
      have h1 : p0 * r ≤ P * r := mul_le_mul_of_nonneg_right hpP hr
      have h2 : r * P ≤ annuity_pmt r P n := rP_le_pmt r P n hr hP hn1
      have h3 : P * r = r * P := mul_comm P r
      linarith
    have hcai : stepClAi r m p0 0 (orgRow r P n (j + 1)) = 0 := by
      rw [stepClAi]
      apply max_eq_left
      rw [stepTotal, hper]
      have hS : p0 * r ≤ (orgRow r P n (j + 1)).interest_pmt +
          (orgRow r P n (j + 1)).principal_pmt + addlGet m (j + 1) := by linarith
      have hW : p0 * r ≤ p0 + 0 + p0 * r := by linarith
      have := le_min hS hW
      linarith
    have hcp0 : 0 ≤ stepClP r m p0 0 (orgRow r P n (j + 1)) := le_max_left 0 _
    have hcpP : stepClP r m p0 0 (orgRow r P n (j + 1)) ≤ P := by
      rw [stepClP_eq, hper]
      apply max_le hP
      linarith
    rw [List.range'_succ, List.map_cons, waterfallAux_cons] at hpr
    rcases List.mem_cons.1 hpr with hh | ht
    · subst hh
      exact ⟨hcai, rfl⟩
    · rw [hcai] at ht
      exact waterfallAux_zero_ai r P n m hr hP hm cnt (j + 1) _ (by omega) hcp0 hcpP pr ht

/-- The sub-components of the waterfall keep the row signature, so the
re-amortized schedule always carries the original `period`, `interest_pmt`
and `principal_pmt` columns. -/
theorem modCfsOf_rowSig (rate P : ℚ) (n : ℕ) (m : AddlMap) :
    (modCfsOf rate P n m).map rowSig = (orgCfs rate P n).map rowSig := by
  rw [modCfsOf]
  split
  · rfl
  · exact waterfall_rowSig rate m P (orgCfs rate P n)

theorem orgCfs_period (r P : ℚ) (n i : ℕ) (row : Row)
    (h : (orgCfs r P n)[i]? = some row) : row.period = i + 1 := by
  rw [orgCfs, List.getElem?_map] at h
  by_cases hi : i < n
  · rw [List.getElem?_range' 1 1 hi] at h
    simp only [Option.map_some'] at h
    rw [Option.some.injEq] at h
    rw [← h]
    show 1 + 1 * i = i + 1
    omega
  · rw [List.getElem?_eq_none (by simpa using Nat.le_of_not_lt hi)] at h
    simp at h

theorem modCfsOf_period (rate P : ℚ) (n : ℕ) (m : AddlMap) (i : ℕ) (row : Row)
    (h : (modCfsOf rate P n m)[i]? = some row) : row.period = i + 1 := by
  have h1 : ((modCfsOf rate P n m).map rowSig)[i]? = some (rowSig row) := by
    rw [List.getElem?_map, h]
    rfl
  rw [modCfsOf_rowSig, List.getElem?_map] at h1
  cases h2 : (orgCfs rate P n)[i]? with
  | none =>
    rw [h2] at h1
    simp at h1
  | some row2 =>
    rw [h2] at h1
    simp only [Option.map_some', Option.some.injEq] at h1
    have hp2 := orgCfs_period rate P n i row2 h2
    have : (rowSig row2).1 = (rowSig row).1 := by rw [h1]
    rw [rowSig, rowSig] at this
    simp only at this
    rw [← this]
    exact hp2

/-! ## Monotonicity of the waterfall in the additional payments -/

theorem stepClP_mono (rate : ℚ) (hr : 0 ≤ rate) (m1 m2 : AddlMap) (row : Row)
    {p1 a1 p2 a2 : ℚ} (hp : p2 ≤ p1) (ha : a2 ≤ a1)
    (hm : addlGet m1 row.period ≤ addlGet m2 row.period) :
    stepClP rate m2 p2 a2 row ≤ stepClP rate m1 p1 a1 row := by
  rw [stepClP_eq, stepClP_eq]
  apply max_le_max (le_refl 0)
  have := mul_le_mul_of_nonneg_right hp hr
  linarith

theorem stepClAi_mono (rate : ℚ) (hr : 0 ≤ rate) (m1 m2 : AddlMap) (row : Row)
    {p1 a1 p2 a2 : ℚ} (hp2 : 0 ≤ p2) (hp : p2 ≤ p1) (ha : a2 ≤ a1)
    (hm : addlGet m1 row.period ≤ addlGet m2 row.period) :
    stepClAi rate m2 p2 a2 row ≤ stepClAi rate m1 p1 a1 row := by
  rw [stepClAi, stepClAi, stepTotal, stepTotal]
  rcases le_total (p2 + a2 + p2 * rate)
    (row.interest_pmt + row.principal_pmt + addlGet m2 row.period) with hw | hw
  · rw [min_eq_right hw]
    have he : a2 + p2 * rate - (p2 + a2 + p2 * rate) = -p2 := by ring
    rw [he, max_eq_left (by linarith : -p2 ≤ 0)]
    exact le_max_left 0 _
  · rw [min_eq_left hw]
    apply max_le_max (le_refl 0)
    have h1 : min (row.interest_pmt + row.principal_pmt + addlGet m1 row.period)
        (p1 + a1 + p1 * rate) ≤
        row.interest_pmt + row.principal_pmt + addlGet m1 row.period := min_le_left _ _
    have h2 := mul_le_mul_of_nonneg_right hp hr
    linarith

theorem waterfallAux_mono (rate : ℚ) (hr : 0 ≤ rate) (m1 m2 : AddlMap)
    (hm : ∀ k, addlGet m1 k ≤ addlGet m2 k) :
    ∀ (rows : List Row) (p1 a1 p2 a2 : ℚ), 0 ≤ p2 → p2 ≤ p1 → 0 ≤ a2 → a2 ≤ a1 →
      List.Forall₂ (fun x y => x.1.period = y.1.period ∧
          y.1.closing_principal ≤ x.1.closing_principal ∧ 0 ≤ y.1.closing_principal ∧
          y.2 ≤ x.2 ∧ 0 ≤ y.2)
        (waterfallAux rate m1 p1 a1 rows) (waterfallAux rate m2 p2 a2 rows)
  | [], _, _, _, _, _, _, _, _ => List.Forall₂.nil
  | row :: rest, p1, a1, p2, a2, hp2, hp, ha2, ha => by
    rw [waterfallAux_cons, waterfallAux_cons]
    have hmr := hm row.period
    have hcp := stepClP_mono rate hr m1 m2 row hp ha hmr
    have hcai := stepClAi_mono rate hr m1 m2 row hp2 hp ha hmr
    have hcp2 : 0 ≤ stepClP rate m2 p2 a2 row := le_max_left 0 _
    have hcai2 : 0 ≤ stepClAi rate m2 p2 a2 row := le_max_left 0 _
    exact List.Forall₂.cons ⟨rfl, hcp, hcp2, hcai, hcai2⟩
      (waterfallAux_mono rate hr m1 m2 hm rest _ _ _ _ hcp2 hcp hcai2 hcai)

/-- Replaying the same rows with a pointwise larger additional-payment dict
produces pointwise smaller (never negative) closing principals, period for
period. -/
theorem waterfall_mono (rate : ℚ) (hr : 0 ≤ rate) (m1 m2 : AddlMap)
    (hm : ∀ k, addlGet m1 k ≤ addlGet m2 k) (P : ℚ) (hP : 0 ≤ P) (rows : List Row) :
    List.Forall₂ (fun x y => x.period = y.period ∧ y.closing_principal ≤ x.closing_principal)
      (waterfall rate m1 P rows) (waterfall rate m2 P rows) := by
  rw [waterfall, waterfall]
  have h := waterfallAux_mono rate hr m1 m2 hm rows P 0 P 0 hP (le_refl P)
    (le_refl 0) (le_refl 0)
  rw [List.forall₂_map_left_iff, List.forall₂_map_right_iff]
  exact h.imp fun a b hab => ⟨hab.1, hab.2.1⟩

/-- Pointwise smaller closing principals (with identical period columns) can
only move the `_maturity` period earlier: the filtered set grows. -/
theorem maturity_mono {l1 l2 : List Row}
    (h : List.Forall₂ (fun x y => x.period = y.period ∧
        y.closing_principal ≤ x.closing_principal) l1 l2) :
    maturity_of l2 ≤ maturity_of l1 := by
  induction h with
  | nil => exact le_refl _
  | @cons x y t1 t2 hxy htail ih =>
    obtain ⟨hper, hle⟩ := hxy
    by_cases hx : x.closing_principal ≤ maturityTol
    · have hy : y.closing_principal ≤ maturityTol := le_trans hle hx
      have e1 : maturity_of (x :: t1) = min (x.period : WithTop ℕ) (maturity_of t1) := by
        rw [maturity_of, List.filter_cons_of_pos (by simpa using hx), List.map_cons,
          List.minimum_cons]
        rfl
      have e2 : maturity_of (y :: t2) = min (y.period : WithTop ℕ) (maturity_of t2) := by
        rw [maturity_of, List.filter_cons_of_pos (by simpa using hy), List.map_cons,
          List.minimum_cons]
        rfl
      rw [e1, e2, ← hper]
      exact min_le_min (le_refl _) ih
    · have e1 : maturity_of (x :: t1) = maturity_of t1 := by
        rw [maturity_of, List.filter_cons_of_neg (by simpa using hx)]
        rfl
      by_cases hy : y.closing_principal ≤ maturityTol
      · have e2 : maturity_of (y :: t2) = min (y.period : WithTop ℕ) (maturity_of t2) := by
          rw [maturity_of, List.filter_cons_of_pos (by simpa using hy), List.map_cons,
            List.minimum_cons]
          rfl
        rw [e1, e2]
        exact le_trans (min_le_right _ _) ih
      · have e2 : maturity_of (y :: t2) = maturity_of t2 := by
          rw [maturity_of, List.filter_cons_of_neg (by simpa using hy)]
          rfl
        rw [e1, e2]
        exact ih

/-! ## Characterizations of the state-machine operations -/

theorem check_inputs_ok {A R T F : ℚ} {ch : String}
    (h : check_inputs A R T F ch = .ok ()) :
    0 ≤ A ∧ A ≤ 10 * 10 ^ 9 ∧ 0 ≤ R ∧ R ≤ 1 ∧ 0 ≤ T ∧ T ≤ 1200 ∧
      0 ≤ F ∧ F ≤ 1 ∧ (ch = "free" ∨ ch = "paid") := by
  unfold check_inputs at h
  split_ifs at h with h1 h2 h3 h4 h5
  push_neg at h1 h2 h3 h4
  exact ⟨h1.1, h1.2, h2.1, h2.2, h3.1, h3.2, h4.1, h4.2, h5⟩

theorem period_to_months_pos (f : Freq) : 0 < period_to_months f := by
  cases f <;> norm_num [period_to_months]

theorem get_mod_cfs_eq (l : Loan) (hf : l.fully_prepaid = false) :
    l.get_mod_cfs =
      if l.addl_pmts.isEmpty then orgCfs l.period_interest_rate l.loan_amt l.periods
      else waterfall l.period_interest_rate l.addl_pmts l.loan_amt l.updated_cfs := by
  rw [Loan.get_mod_cfs, hf]
  rfl

theorem update_addl_pmts_eq (l : Loan) (m : AddlMap) (hf : l.fully_prepaid = false) :
    l.update_addl_pmts m = .ok { l with
      addl_pmts := if l.addl_pmts.isEmpty then m else mergeAddl l.addl_pmts m
      updated_cfs := ({ l with
        addl_pmts :=
          if l.addl_pmts.isEmpty then m else mergeAddl l.addl_pmts m } : Loan).get_mod_cfs } := by
  rw [Loan.update_addl_pmts, hf]
  by_cases he : l.addl_pmts.isEmpty
  · rw [if_pos he, if_pos he]
    rfl
  · rw [if_neg he, if_neg he]
    rfl

theorem prepay_fully_eq (l : Loan) (p : ℕ) (row : Row)
    (hf : l.fully_prepaid = false) (hrow : l.updated_cfs[p - 1]? = some row) :
    l.prepay_fully p = .ok { l with
      addl_pmts := mergeAddl l.addl_pmts [(p, row.closing_principal)]
      fully_prepaid := true
      updated_cfs := ({ l with
        addl_pmts :=
          mergeAddl l.addl_pmts [(p, row.closing_principal)] } : Loan).get_mod_cfs } := by
  rw [Loan.prepay_fully, hf]
  show (match l.updated_cfs[p - 1]? with
    | none => Except.error LoanError.keyError
    | some row => _) = _
  rw [hrow]

theorem prepay_fully_keyError (l : Loan) (p : ℕ) (hf : l.fully_prepaid = false)
    (hrow : l.updated_cfs[p - 1]? = none) :
    l.prepay_fully p = .error .keyError := by
  rw [Loan.prepay_fully, hf]
  show (match l.updated_cfs[p - 1]? with
    | none => Except.error LoanError.keyError
    | some row => _) = _
  rw [hrow]

theorem prepay_fully_terminal (l : Loan) (p : ℕ) (hf : l.fully_prepaid = true) :
    l.prepay_fully p = .error .prepaymentException := by
  rw [Loan.prepay_fully, hf]
  exact if_pos rfl

theorem update_addl_pmts_terminal (l : Loan) (m : AddlMap) (hf : l.fully_prepaid = true) :
    l.update_addl_pmts m = .error .prepaymentException := by
  rw [Loan.update_addl_pmts, hf]
  exact if_pos rfl

theorem reset_addl_pmts_eq (l : Loan) :
    l.reset_addl_pmts = { l with
      addl_pmts := ([] : AddlMap)
      fully_prepaid := false
      updated_cfs := orgCfs l.period_interest_rate l.loan_amt l.periods } := rfl

/-! ## The claims -/

/-- C7: for every valid `LoanTerms`, the original schedule produced at
construction contains exactly `ceil(term_in_months / frequency_month_equivalent)`
rows, with period indices `1..N` in order. -/
theorem C7_schedule_length {A R T : ℚ} {freq : Freq} {F : ℚ} {addl : AddlMap}
    {sg ch : String} {l : Loan}
    (h : mkLoan A R T freq F addl sg ch = .ok l) :
    l.original_cfs.length = (⌈T / period_to_months freq⌉).toNat ∧
    ∀ (i : ℕ) (row : Row), l.original_cfs[i]? = some row → row.period = i + 1 := by
  unfold mkLoan at h
  split at h
  · exact absurd h (by simp)
  · rw [Except.ok.injEq] at h
    subst h
    constructor
    · show (orgCfs _ _ _).length = _
      rw [orgCfs, List.length_map, List.length_range']
    · intro i row hrow
      exact orgCfs_period _ _ _ i row hrow

theorem C7_witness :
    sampleLoanEmpty.original_cfs.length = (⌈(3 : ℚ) / period_to_months Freq.M⌉).toNat ∧
    ∀ (i : ℕ) (row : Row), sampleLoanEmpty.original_cfs[i]? = some row →
      row.period = i + 1 :=
  C7_schedule_length (show mkLoan 300 0 3 Freq.M 0 [] "c" "free" = .ok sampleLoanEmpty from rfl)

/-- C8: no sequence of state-machine operations ever mutates `original_cfs`;
side effects are confined to `updated_cfs`, `addl_pmts` and `fully_prepaid`
(every other field of the state is also left unchanged). -/
theorem C8_original_cfs_frozen (l : Loan) (ops : List LoanOp) :
    (l.runOps ops).original_cfs = l.original_cfs ∧
    (l.runOps ops).loan_amt = l.loan_amt ∧
    (l.runOps ops).interest_rate = l.interest_rate ∧
    (l.runOps ops).term_in_months = l.term_in_months ∧
    (l.runOps ops).freq = l.freq ∧
    (l.runOps ops).fees_pct = l.fees_pct ∧
    (l.runOps ops).periods = l.periods ∧
    (l.runOps ops).period_interest_rate = l.period_interest_rate ∧
    (l.runOps ops).pmt = l.pmt := by
  induction ops generalizing l with
  | nil =>
    exact ⟨rfl, rfl, rfl, rfl, rfl, rfl, rfl, rfl, rfl⟩
  | cons op ops ih =>
    have hstep : (l.step op).original_cfs = l.original_cfs ∧
        (l.step op).loan_amt = l.loan_amt ∧
        (l.step op).interest_rate = l.interest_rate ∧
        (l.step op).term_in_months = l.term_in_months ∧
        (l.step op).freq = l.freq ∧
        (l.step op).fees_pct = l.fees_pct ∧
        (l.step op).periods = l.periods ∧
        (l.step op).period_interest_rate = l.period_interest_rate ∧
        (l.step op).pmt = l.pmt := by
      cases op with
      | update m =>
        rw [Loan.step]
        cases hres : l.update_addl_pmts m with
        | error e =>
          exact ⟨rfl, rfl, rfl, rfl, rfl, rfl, rfl, rfl, rfl⟩
        | ok l2 =>
          cases hflag : l.fully_prepaid with
          | true =>
            rw [update_addl_pmts_terminal l m hflag] at hres
            exact absurd hres (by simp)
          | false =>
            rw [update_addl_pmts_eq l m hflag, Except.ok.injEq] at hres
            rw [← hres]
            exact ⟨rfl, rfl, rfl, rfl, rfl, rfl, rfl, rfl, rfl⟩
      | prepay p =>
        rw [Loan.step]
        cases hres : l.prepay_fully p with
        | error e =>
          exact ⟨rfl, rfl, rfl, rfl, rfl, rfl, rfl, rfl, rfl⟩
        | ok l2 =>
          cases hflag : l.fully_prepaid with
          | true =>
            rw [prepay_fully_terminal l p hflag] at hres
            exact absurd hres (by simp)
          | false =>
            cases hrow : l.updated_cfs[p - 1]? with
            | none =>
              rw [prepay_fully_keyError l p hflag hrow] at hres
              exact absurd hres (by simp)
            | some row =>
              rw [prepay_fully_eq l p row hflag hrow, Except.ok.injEq] at hres
              rw [← hres]
              exact ⟨rfl, rfl, rfl, rfl, rfl, rfl, rfl, rfl, rfl⟩
      | reset =>
        rw [Loan.step, reset_addl_pmts_eq]
        exact ⟨rfl, rfl, rfl, rfl, rfl, rfl, rfl, rfl, rfl⟩
    rw [Loan.runOps]
    have htail := ih (l.step op)
    rw [htail.1, htail.2.1, htail.2.2.1, htail.2.2.2.1, htail.2.2.2.2.1,
      htail.2.2.2.2.2.1, htail.2.2.2.2.2.2.1, htail.2.2.2.2.2.2.2.1,
      htail.2.2.2.2.2.2.2.2]
    exact hstep

/-- C9: on a fully prepaid loan, `update_addl_pmts` and `prepay_fully` raise
`PrepaymentException` before any mutation, so a caller that catches the
exception observes an entirely unchanged loan state. -/
theorem C9_terminal_error_atomic (l : Loan) (hf : l.fully_prepaid = true) :
    (∀ m, l.update_addl_pmts m = .error .prepaymentException ∧ l.step (.update m) = l) ∧
    ∀ p, l.prepay_fully p = .error .prepaymentException ∧ l.step (.prepay p) = l := by
  constructor
  · intro m
    have he := update_addl_pmts_terminal l m hf
    refine ⟨he, ?_⟩
    rw [Loan.step, he]
  · intro p
    have he := prepay_fully_terminal l p hf
    refine ⟨he, ?_⟩
    rw [Loan.step, he]

theorem C9_witness :
    sampleLoanPrepaid.update_addl_pmts [(1, 5)] = .error .prepaymentException ∧
    sampleLoanPrepaid.step (.update [(1, 5)]) = sampleLoanPrepaid ∧
    sampleLoanPrepaid.prepay_fully 1 = .error .prepaymentException ∧
    sampleLoanPrepaid.step (.prepay 1) = sampleLoanPrepaid := by
  have h := C9_terminal_error_atomic sampleLoanPrepaid (by rfl)
  exact ⟨(h.1 [(1, 5)]).1, (h.1 [(1, 5)]).2, (h.2 1).1, (h.2 1).2⟩

/-- C6 counterexample: construction accepts an additional-payment dict with a
period key (5) greater than the original period count (3) and a negative
amount (−50); no range error is raised and a loan object is produced,
contrary to the claim. -/
theorem C6_counterexample :
    mkLoan 300 0 3 Freq.M 0 [(5, -50)] "c" "free" = .ok sampleLoanBadMap ∧
    (⌈(3 : ℚ) / period_to_months Freq.M⌉).toNat = 3 ∧ 3 < 5 ∧ (-50 : ℚ) < 0 := by
  refine ⟨by rfl, by rfl, by norm_num, by norm_num⟩

/-- C6 (amended): construction performs no range validation on the
additional-payment dict: whenever the scalar fields pass `_check_inputs`
(i.e. construction with the empty dict succeeds), construction succeeds with
any dict whatsoever — out-of-range keys and negative amounts included. -/
theorem C6_no_map_validation {A R T F : ℚ} {freq : Freq} {sg ch : String} {l0 : Loan}
    (m : AddlMap) (h : mkLoan A R T freq F [] sg ch = .ok l0) :
    ∃ l, mkLoan A R T freq F m sg ch = .ok l := by
  unfold mkLoan at h ⊢
  split at h
  · exact absurd h (by simp)
  · exact ⟨_, rfl⟩

theorem C6_witness :
    ∃ l, mkLoan 300 0 3 Freq.M 0 [(5, -50)] "c" "free" = .ok l :=
  C6_no_map_validation [(5, -50)]
    (show mkLoan 300 0 3 Freq.M 0 [] "c" "free" = .ok sampleLoanEmpty from rfl)

/-- C3: for every valid loan whose additional-payment dict is empty (and not
fully prepaid, the only state in which an empty dict can occur), the modified
schedule equals the original schedule row for row, and consequently
`mod_wal = org_wal` and `mod_apr = org_apr`. -/
theorem C3_empty_map_identity (l : Loan) (hwf : l.Wf)
    (hempty : l.addl_pmts.isEmpty = true) (hf : l.fully_prepaid = false) :
    l.updated_cfs = l.original_cfs ∧ l.mod_wal = l.org_wal ∧ l.mod_apr = l.org_apr := by
  obtain ⟨-, -, -, -, -, horig, hupd⟩ := hwf
  have h1 : l.updated_cfs = orgCfs l.period_interest_rate l.loan_amt l.periods := by
    rw [hupd hf, modCfsOf, if_pos hempty]
  have hmw : l.mod_wal = l.org_wal := by
    rw [Loan.mod_wal, Loan.org_wal, h1]
    rfl
  exact ⟨by rw [h1, horig], hmw, by rw [Loan.mod_apr, Loan.org_apr, hmw]⟩

theorem C3_witness :
    sampleLoanEmpty.updated_cfs = sampleLoanEmpty.original_cfs ∧
    sampleLoanEmpty.mod_wal = sampleLoanEmpty.org_wal ∧
    sampleLoanEmpty.mod_apr = sampleLoanEmpty.org_apr :=
  C3_empty_map_identity sampleLoanEmpty (by decide) (by rfl) (by rfl)

/-- C1 counterexample: on a fresh 3-period loan (closing balances 200, 100, 0
for periods 1, 2, 3), `prepay_fully(2)` merges 100 — the modified schedule's
`closing_principal` at period 2 itself (`df.loc[1]`, the row whose `period`
column is 2) — into the dict at key 2, not the 200 that the claim's
"closing_principal at period 2 − 1 = 1, the balance immediately before period
2" would give. -/
theorem C1_counterexample :
    ((sampleLoanEmpty.prepay_fully 2).map fun l2 => addlGet l2.addl_pmts 2) = .ok 100 ∧
    sampleLoanEmpty.updated_cfs.map (fun row => (row.period, row.closing_principal)) =
      [(1, 200), (2, 100), (3, 0)] ∧
    (100 : ℚ) ≠ 200 :=
  ⟨by rfl, by rfl, by norm_num⟩

/-- C1 (amended): for every well-formed Active loan, `prepay_fully(p)` reads
the modified schedule's `closing_principal` at period `p` itself — `df.loc`
label `p − 1` is the 0-based row whose `period` column equals `p`, i.e. the
balance at the end of period `p`, not the balance immediately before it — as
the payoff amount, merges that amount into the additional-payment dict at key
`p`, re-amortizes, and transitions the loan to FullyPrepaid. -/
theorem C1_prepay_reads_period_p (l : Loan) (p : ℕ) (row : Row)
    (hwf : l.Wf) (hf : l.fully_prepaid = false) (hp : 1 ≤ p)
    (hrow : l.updated_cfs[p - 1]? = some row) :
    row.period = p ∧
    ∃ l2, l.prepay_fully p = .ok l2 ∧
      l2.fully_prepaid = true ∧
      l2.addl_pmts = mergeAddl l.addl_pmts [(p, row.closing_principal)] ∧
      addlGet l2.addl_pmts p = addlGet l.addl_pmts p + row.closing_principal ∧
      l2.updated_cfs =
        waterfall l.period_interest_rate l2.addl_pmts l.loan_amt l.updated_cfs := by
  obtain ⟨-, -, -, -, -, -, hupd⟩ := hwf
  have hperiod : row.period = p := by
    have h1 := hupd hf
    rw [h1] at hrow
    have h2 := modCfsOf_period _ _ _ _ _ row hrow
    omega
  refine ⟨hperiod, ?_⟩
  rw [prepay_fully_eq l p row hf hrow]
  have hne : (mergeAddl l.addl_pmts [(p, row.closing_principal)]).isEmpty = false :=
    List.isEmpty_eq_false.mpr (mergeAddl_ne_nil _ _ (by simp))
  refine ⟨_, rfl, rfl, rfl, ?_, ?_⟩
  · rw [addlGet_mergeAddl, addlGet_single, if_pos rfl]
  · show (if l.fully_prepaid = true then l.updated_cfs
      else if (mergeAddl l.addl_pmts [(p, row.closing_principal)]).isEmpty = true then
        orgCfs l.period_interest_rate l.loan_amt l.periods
      else waterfall l.period_interest_rate
        (mergeAddl l.addl_pmts [(p, row.closing_principal)]) l.loan_amt l.updated_cfs) =
      waterfall l.period_interest_rate
        (mergeAddl l.addl_pmts [(p, row.closing_principal)]) l.loan_amt l.updated_cfs
    rw [hf, if_neg (by simp), if_neg (by simp [hne])]

theorem C1_witness :
    sampleRowTwo.period = 2 ∧
    ∃ l2, sampleLoanEmpty.prepay_fully 2 = .ok l2 ∧
      l2.fully_prepaid = true ∧
      l2.addl_pmts = mergeAddl sampleLoanEmpty.addl_pmts [(2, sampleRowTwo.closing_principal)] ∧
      addlGet l2.addl_pmts 2 =
        addlGet sampleLoanEmpty.addl_pmts 2 + sampleRowTwo.closing_principal ∧
      l2.updated_cfs = waterfall sampleLoanEmpty.period_interest_rate l2.addl_pmts
        sampleLoanEmpty.loan_amt sampleLoanEmpty.updated_cfs :=
  C1_prepay_reads_period_p sampleLoanEmpty 2 sampleRowTwo (by decide) (by rfl)
    (by norm_num) (by rfl)

/-- C2: for every loan with a non-empty additional-payment dict that is not
fully prepaid, re-amortization replays all periods in increasing order
carrying principal and accrued interest forward (period 1 opens at the full
principal with zero accrued interest; each later period opens at the previous
period's closing values), and in each period
`total_pmt = min(interest_pmt + principal_pmt + additional_pmt,
opening_principal + opening_accrued_interest + current_period_interest)`,
`closing_accrued_interest = max(0, opening_accrued_interest +
current_period_interest − total_pmt)`, and `closing_principal = max(0,
opening_principal + opening_accrued_interest + current_period_interest −
total_pmt)`, with `current_period_interest = opening_principal × per-period
rate`; the scheduled `period`/`interest_pmt`/`principal_pmt` columns are
taken unchanged from the input schedule. -/
theorem C2_waterfall_recurrence (l : Loan)
    (hf : l.fully_prepaid = false) (hne : l.addl_pmts.isEmpty = false) :
    l.get_mod_cfs =
      (waterfallAux l.period_interest_rate l.addl_pmts l.loan_amt 0 l.updated_cfs).map
        Prod.fst ∧
    (∀ pr : Row × ℚ,
      (waterfallAux l.period_interest_rate l.addl_pmts l.loan_amt 0 l.updated_cfs)[0]? =
          some pr →
        pr.1.opening_principal = l.loan_amt ∧ pr.1.opening_accrued_interest = 0) ∧
    (∀ (i : ℕ) (prev cur : Row × ℚ),
      (waterfallAux l.period_interest_rate l.addl_pmts l.loan_amt 0 l.updated_cfs)[i]? =
          some prev →
        (waterfallAux l.period_interest_rate l.addl_pmts l.loan_amt 0
          l.updated_cfs)[i + 1]? = some cur →
        cur.1.opening_principal = prev.1.closing_principal ∧
        cur.1.opening_accrued_interest = prev.2) ∧
    (∀ (i : ℕ) (pr : Row × ℚ),
      (waterfallAux l.period_interest_rate l.addl_pmts l.loan_amt 0 l.updated_cfs)[i]? =
          some pr →
        pr.1.current_period_interest = pr.1.opening_principal * l.period_interest_rate ∧
        pr.1.additional_pmt = addlGet l.addl_pmts pr.1.period ∧
        pr.1.total_pmt =
          min (pr.1.interest_pmt + pr.1.principal_pmt + pr.1.additional_pmt)
            (pr.1.opening_principal + pr.1.opening_accrued_interest +
              pr.1.current_period_interest) ∧
        pr.2 = max 0 (pr.1.opening_accrued_interest + pr.1.current_period_interest -
          pr.1.total_pmt) ∧
        pr.1.closing_principal =
          max 0 (pr.1.opening_principal + pr.1.opening_accrued_interest +
            pr.1.current_period_interest - pr.1.total_pmt)) ∧
    ((waterfallAux l.period_interest_rate l.addl_pmts l.loan_amt 0
        l.updated_cfs).map Prod.fst).map rowSig = l.updated_cfs.map rowSig := by
  refine ⟨?_, ?_, ?_, ?_, ?_⟩
  · rw [get_mod_cfs_eq l hf, if_neg (by simp [hne]), waterfall]
  · intro pr h
    exact waterfallAux_head _ _ _ _ _ pr h
  · intro i prev cur h1 h2
    exact waterfallAux_chain _ _ _ _ _ i prev cur h1 h2
  · intro i pr h
    exact waterfallAux_fields _ _ _ _ _ i pr h
  · exact waterfallAux_rowSig _ _ _ _ _

theorem C2_witness :
    sampleLoanAddl.get_mod_cfs =
      (waterfallAux sampleLoanAddl.period_interest_rate sampleLoanAddl.addl_pmts
        sampleLoanAddl.loan_amt 0 sampleLoanAddl.updated_cfs).map Prod.fst ∧
    (∀ pr : Row × ℚ,
      (waterfallAux sampleLoanAddl.period_interest_rate sampleLoanAddl.addl_pmts
          sampleLoanAddl.loan_amt 0 sampleLoanAddl.updated_cfs)[0]? = some pr →
        pr.1.opening_principal = sampleLoanAddl.loan_amt ∧
        pr.1.opening_accrued_interest = 0) ∧
    (∀ (i : ℕ) (prev cur : Row × ℚ),
      (waterfallAux sampleLoanAddl.period_interest_rate sampleLoanAddl.addl_pmts
          sampleLoanAddl.loan_amt 0 sampleLoanAddl.updated_cfs)[i]? = some prev →
        (waterfallAux sampleLoanAddl.period_interest_rate sampleLoanAddl.addl_pmts
          sampleLoanAddl.loan_amt 0 sampleLoanAddl.updated_cfs)[i + 1]? = some cur →
        cur.1.opening_principal = prev.1.closing_principal ∧
        cur.1.opening_accrued_interest = prev.2) ∧
    (∀ (i : ℕ) (pr : Row × ℚ),
      (waterfallAux sampleLoanAddl.period_interest_rate sampleLoanAddl.addl_pmts
          sampleLoanAddl.loan_amt 0 sampleLoanAddl.updated_cfs)[i]? = some pr →
        pr.1.current_period_interest =
          pr.1.opening_principal * sampleLoanAddl.period_interest_rate ∧
        pr.1.additional_pmt = addlGet sampleLoanAddl.addl_pmts pr.1.period ∧
        pr.1.total_pmt =
          min (pr.1.interest_pmt + pr.1.principal_pmt + pr.1.additional_pmt)
            (pr.1.opening_principal + pr.1.opening_accrued_interest +
              pr.1.current_period_interest) ∧
        pr.2 = max 0 (pr.1.opening_accrued_interest + pr.1.current_period_interest -
          pr.1.total_pmt) ∧
        pr.1.closing_principal =
          max 0 (pr.1.opening_principal + pr.1.opening_accrued_interest +
            pr.1.current_period_interest - pr.1.total_pmt)) ∧
    ((waterfallAux sampleLoanAddl.period_interest_rate sampleLoanAddl.addl_pmts
        sampleLoanAddl.loan_amt 0 sampleLoanAddl.updated_cfs).map Prod.fst).map rowSig =
      sampleLoanAddl.updated_cfs.map rowSig :=
  C2_waterfall_recurrence sampleLoanAddl (by rfl) (by rfl)

/-- C5: after a successful `prepay_fully(p)`, every subsequent
`update_addl_pmts` or `prepay_fully` raises the terminal-state error, and a
subsequent `reset_addl_pmts` clears the fully-prepaid flag and the
additional-payment dict and yields a state identical to a freshly constructed
loan with the same terms and no additional payments. -/
theorem C5_prepay_terminal_reset (l l2 l0 : Loan) (p : ℕ)
    (hwf : l.Wf)
    (h0 : mkLoan l.loan_amt l.interest_rate l.term_in_months l.freq l.fees_pct []
      l.segment l.channel = .ok l0)
    (hpre : l.prepay_fully p = .ok l2) :
    (∀ m, l2.update_addl_pmts m = .error .prepaymentException) ∧
    (∀ q, l2.prepay_fully q = .error .prepaymentException) ∧
    l2.reset_addl_pmts = l0 := by
  cases hflag : l.fully_prepaid with
  | true =>
    rw [prepay_fully_terminal l p hflag] at hpre
    exact absurd hpre (by simp)
  | false =>
    cases hrow : l.updated_cfs[p - 1]? with
    | none =>
      rw [prepay_fully_keyError l p hflag hrow] at hpre
      exact absurd hpre (by simp)
    | some row =>
      rw [prepay_fully_eq l p row hflag hrow, Except.ok.injEq] at hpre
      have hflag2 : l2.fully_prepaid = true := by
        rw [← hpre]
      refine ⟨fun m => update_addl_pmts_terminal l2 m hflag2,
        fun q => prepay_fully_terminal l2 q hflag2, ?_⟩
      rw [reset_addl_pmts_eq]
      unfold mkLoan at h0
      split at h0
      · exact absurd h0 (by simp)
      · rw [Except.ok.injEq] at h0
        obtain ⟨-, -, hper, hrate, hpmt, horig, -⟩ := hwf
        rw [← hpre, ← h0]
        apply Loan.ext
        · rfl
        · rfl
        · rfl
        · rfl
        · rfl
        · rfl
        · rfl
        · exact hper
        · exact hrate
        · show l.pmt = _
          rw [hpmt, hrate, hper]
        · rfl
        · rfl
        · show l.original_cfs = _
          rw [horig, hrate, hper]
        · show orgCfs l.period_interest_rate l.loan_amt l.periods = _
          rw [hrate, hper]
          rfl

theorem C5_witness :
    (∀ m, sampleLoanPrepaid.update_addl_pmts m = .error .prepaymentException) ∧
    (∀ q, sampleLoanPrepaid.prepay_fully q = .error .prepaymentException) ∧
    sampleLoanPrepaid.reset_addl_pmts = sampleLoanEmpty :=
  C5_prepay_terminal_reset sampleLoanAddl sampleLoanPrepaid sampleLoanEmpty 2
    (by decide) (by rfl) (by rfl)

/-- C10: for every well-formed Active loan with non-negative additional
payments, the accrued-interest carry of the re-amortized schedule is
identically zero: every row of the modified schedule has
`opening_accrued_interest = 0`, and every `closing_accrued_interest` computed
by the waterfall loop is 0. -/
theorem C10_zero_accrued_interest (l : Loan) (hwf : l.Wf)
    (hf : l.fully_prepaid = false)
    (hpos : ∀ k, 0 ≤ addlGet l.addl_pmts k) :
    (∀ row ∈ l.get_mod_cfs, row.opening_accrued_interest = 0) ∧
    (∀ pr ∈ waterfallAux l.period_interest_rate l.addl_pmts l.loan_amt 0 l.updated_cfs,
      pr.2 = 0 ∧ pr.1.opening_accrued_interest = 0) := by
  obtain ⟨hr0, hP0, -, -, -, -, hupd⟩ := hwf
  have hsig : l.updated_cfs.map rowSig =
      (orgCfs l.period_interest_rate l.loan_amt l.periods).map rowSig := by
    rw [hupd hf]
    exact modCfsOf_rowSig _ _ _ _
  have hcong := waterfallAux_congr l.period_interest_rate l.addl_pmts l.updated_cfs
    (orgCfs l.period_interest_rate l.loan_amt l.periods) l.loan_amt 0 hsig
  have hzero : ∀ pr ∈ waterfallAux l.period_interest_rate l.addl_pmts l.loan_amt 0
      l.updated_cfs, pr.2 = 0 ∧ pr.1.opening_accrued_interest = 0 := by
    intro pr hpr
    rw [hcong] at hpr
    have h0 : orgCfs l.period_interest_rate l.loan_amt l.periods =
        (List.range' (0 + 1) l.periods).map
          (orgRow l.period_interest_rate l.loan_amt l.periods) := rfl
    rw [h0] at hpr
    exact waterfallAux_zero_ai l.period_interest_rate l.loan_amt l.periods l.addl_pmts
      hr0 hP0 hpos l.periods 0 l.loan_amt (by omega) hP0 (le_refl _) pr hpr
  refine ⟨?_, hzero⟩
  intro row hrow
  rw [get_mod_cfs_eq l hf] at hrow
  by_cases he : l.addl_pmts.isEmpty
  · rw [if_pos he, orgCfs] at hrow
    obtain ⟨k, hk, hrk⟩ := List.mem_map.1 hrow
    rw [← hrk]
    rfl
  · rw [if_neg he, waterfall] at hrow
    obtain ⟨pr, hpr, hprr⟩ := List.mem_map.1 hrow
    rw [← hprr]
    exact (hzero pr hpr).2

theorem C10_witness :
    (∀ row ∈ sampleLoanAddl.get_mod_cfs, row.opening_accrued_interest = 0) ∧
    (∀ pr ∈ waterfallAux sampleLoanAddl.period_interest_rate sampleLoanAddl.addl_pmts
        sampleLoanAddl.loan_amt 0 sampleLoanAddl.updated_cfs,
      pr.2 = 0 ∧ pr.1.opening_accrued_interest = 0) :=
  C10_zero_accrued_interest sampleLoanAddl (by decide) (by rfl)
    (by
      intro k
      have h : addlGet sampleLoanAddl.addl_pmts k = addlGet [(2, 50)] k := rfl
      rw [h, addlGet_single]
      split
      · norm_num
      · exact le_refl 0)

/-- C4: for every well-formed Active loan, adding a positive additional
payment in any period via `update_addl_pmts({p: a})` never increases
`mod_maturity_period` relative to the schedule before the addition. -/
theorem C4_maturity_monotone (l l2 : Loan) (p : ℕ) (a : ℚ)
    (hwf : l.Wf) (hf : l.fully_prepaid = false) (ha : 0 < a)
    (hup : l.update_addl_pmts [(p, a)] = .ok l2) :
    l2.mod_maturity_period ≤ l.mod_maturity_period := by
  obtain ⟨hr0, hP0, -, -, -, -, hupd⟩ := hwf
  rw [update_addl_pmts_eq l [(p, a)] hf, Except.ok.injEq] at hup
  set M := (if l.addl_pmts.isEmpty then [(p, a)] else mergeAddl l.addl_pmts [(p, a)])
    with hM
  have hsingle : ∀ k, 0 ≤ addlGet [(p, a)] k := by
    intro k
    rw [addlGet_single]
    split
    · exact le_of_lt ha
    · exact le_refl 0
  have hm : ∀ k, addlGet l.addl_pmts k ≤ addlGet M k := by
    intro k
    rw [hM]
    by_cases he : l.addl_pmts.isEmpty
    · rw [if_pos he, List.isEmpty_iff.1 he, addlGet_nil]
      exact hsingle k
    · rw [if_neg he, addlGet_mergeAddl]
      have := hsingle k
      linarith
  have hMne : M.isEmpty = false := by
    rw [hM]
    by_cases he : l.addl_pmts.isEmpty
    · rw [if_pos he]
      rfl
    · rw [if_neg he]
      exact List.isEmpty_eq_false.mpr (mergeAddl_ne_nil _ _ (by simp))
  have hsig : l.updated_cfs.map rowSig =
      (orgCfs l.period_interest_rate l.loan_amt l.periods).map rowSig := by
    rw [hupd hf]
    exact modCfsOf_rowSig _ _ _ _
  have hupdnew : l2.updated_cfs =
      waterfall l.period_interest_rate M l.loan_amt
        (orgCfs l.period_interest_rate l.loan_amt l.periods) := by
    rw [← hup]
    show ({ l with addl_pmts := M } : Loan).get_mod_cfs = _
    show (if l.fully_prepaid = true then l.updated_cfs
      else if M.isEmpty = true then orgCfs l.period_interest_rate l.loan_amt l.periods
      else waterfall l.period_interest_rate M l.loan_amt l.updated_cfs) = _
    rw [hf, if_neg (by simp), if_neg (by simp [hMne]), waterfall, waterfall,
      waterfallAux_congr l.period_interest_rate M l.updated_cfs _ _ _ hsig]
  have hold : l.updated_cfs =
      waterfall l.period_interest_rate l.addl_pmts l.loan_amt
        (orgCfs l.period_interest_rate l.loan_amt l.periods) := by
    rw [hupd hf, modCfsOf]
    by_cases he : l.addl_pmts.isEmpty
    · rw [if_pos he, List.isEmpty_iff.1 he]
      exact (waterfall_org _ _ _ [] hr0 hP0 fun k => rfl).symm
    · rw [if_neg he]
  have hforall := waterfall_mono l.period_interest_rate hr0 l.addl_pmts M hm
    l.loan_amt hP0 (orgCfs l.period_interest_rate l.loan_amt l.periods)
  rw [Loan.mod_maturity_period, Loan.mod_maturity_period, hupdnew, hold]
  exact maturity_mono hforall

theorem C4_witness :
    sampleLoanAfterUpdate.mod_maturity_period ≤ sampleLoanEmpty.mod_maturity_period :=
  C4_maturity_monotone sampleLoanEmpty sampleLoanAfterUpdate 2 100 (by decide) (by rfl)
    (by norm_num) (by rfl)

end Pyloans
